import Mathlib

/-!
Verification of the cache-aware summarization orchestrator
(src/scripts/article_processor.py) and of the benchmark driver
(src/scripts/llmbench.py).

Text is modelled as lists of characters.  The regex whitespace class \s
is modelled by the six ASCII whitespace characters it matches on ASCII
text.  The scanners that implement re.sub restart after each removed
match; they carry a fuel argument instantiated with the input length,
and every recursive call strictly shortens the scanned list, so the
fuel never runs out.
-/

/-- ASCII whitespace, the characters matched by the regex class \s on
ASCII input (space, tab, newline, carriage return, vertical tab, form feed). -/
def pySpace (c : Char) : Bool :=
  c = ' ' || c = '\t' || c = '\n' || c = '\r' || c = '\x0b' || c = '\x0c'

/-- The characters of the regex class used by the line-oriented rules
of clean_text (space and tab only). -/
def isTabSpace (c : Char) : Bool := c = ' ' || c = '\t'

/-- Case-insensitive literal matching, as the IGNORECASE flag gives it:
consume the pattern from the front of the input, returning the rest. -/
def matchLit : List Char → List Char → Option (List Char)
  | [], l => some l
  | _ :: _, [] => none
  | p :: ps, c :: cs => if c.toLower = p.toLower then matchLit ps cs else none

def thinkWord : List Char := ['t', 'h', 'i', 'n', 'k']

def thinkingWord : List Char := ['t', 'h', 'i', 'n', 'k', 'i', 'n', 'g']

def doneWord : List Char := "done thinking.".toList

/-- Matching the opening delimiter of the first clean_text rule at the
head of the input (a left angle bracket, optional whitespace, the word
think in any case, optional whitespace, a right angle bracket). -/
def matchOpenThink (l : List Char) : Option (List Char) :=
  match l with
  | c :: r =>
    if c = '<' then
      match matchLit thinkWord (r.dropWhile pySpace) with
      | some r2 =>
        match r2.dropWhile pySpace with
        | c2 :: r3 => if c2 = '>' then some r3 else none
        | [] => none
      | none => none
    else none
  | [] => none

/-- Matching the closing delimiter of the first clean_text rule at the
head of the input. -/
def matchCloseThink (l : List Char) : Option (List Char) :=
  match l with
  | c :: c2 :: r =>
    if c = '<' && c2 = '/' then
      match matchLit thinkWord (r.dropWhile pySpace) with
      | some r2 =>
        match r2.dropWhile pySpace with
        | c3 :: r3 => if c3 = '>' then some r3 else none
        | [] => none
      | none => none
    else none
  | _ => none

/-- Scan for the earliest closing delimiter, as the non-greedy body of
the first clean_text rule does, returning the input after it. -/
def findClose : List Char → Option (List Char)
  | [] => none
  | c :: cs =>
    match matchCloseThink (c :: cs) with
    | some r => some r
    | none => findClose cs

/-- First clean_text rule: remove every region delimited by an opening
and the earliest following closing think delimiter, scanning left to
right and continuing after each removed region. -/
def sub1F : Nat → List Char → List Char
  | 0, l => l
  | _ + 1, [] => []
  | n + 1, c :: cs =>
    match matchOpenThink (c :: cs) with
    | some rest =>
      match findClose rest with
      | some rest2 => sub1F n rest2
      | none => c :: sub1F n cs
    | none => c :: sub1F n cs

def sub1 (l : List Char) : List Char := sub1F l.length l

def dotOrSpace (c : Char) : Bool := c = '.' || pySpace c

/-- Matching the second clean_text rule at the head of the input: the
word think in any case, then a run of dots and whitespace holding at
least one dot, then the phrase done thinking with a final dot.  The
run is maximal because the character after it must start the literal
phrase, so no dot or whitespace can be left unconsumed. -/
def tryDoneThinking (l : List Char) : Option (List Char) :=
  match matchLit thinkWord l with
  | some r =>
    if (r.takeWhile dotOrSpace).contains '.' then
      match matchLit doneWord (r.dropWhile dotOrSpace) with
      | some r2 => some r2
      | none => none
    else none
  | none => none

/-- Second clean_text rule, scanning left to right. -/
def sub2F : Nat → List Char → List Char
  | 0, l => l
  | _ + 1, [] => []
  | n + 1, c :: cs =>
    match tryDoneThinking (c :: cs) with
    | some rest => sub2F n rest
    | none => c :: sub2F n cs

def sub2 (l : List Char) : List Char := sub2F l.length l

/-- Split at newline characters; the multiline anchors of the third and
fourth clean_text rules see exactly these lines. -/
def splitLines : List Char → List (List Char)
  | [] => [[]]
  | c :: cs =>
    let r := splitLines cs
    if c = '\n' then [] :: r else (c :: r.headI) :: r.tail

/-- Rejoin lines with newline characters. -/
def joinLines : List (List Char) → List Char
  | [] => []
  | [l] => l
  | l :: ls => l ++ '\n' :: joinLines ls

/-- A line matched by the third clean_text rule: optional spaces and
tabs, the word thinking in any case, optional spaces and tabs. -/
def isThinkingLine (line : List Char) : Bool :=
  match matchLit thinkingWord (line.dropWhile isTabSpace) with
  | some r => (r.dropWhile isTabSpace).isEmpty
  | none => false

def zapThinking (line : List Char) : List Char :=
  if isThinkingLine line then [] else line

/-- Third clean_text rule: empty every line holding only the word
thinking with optional surrounding spaces and tabs. -/
def sub3 (l : List Char) : List Char :=
  joinLines ((splitLines l).map zapThinking)

/-- Remove the maximal run of characters satisfying p from the end. -/
def dropTrailing (p : Char → Bool) : List Char → List Char
  | [] => []
  | c :: cs =>
    let r := dropTrailing p cs
    if r.isEmpty then (if p c then [] else [c]) else c :: r

def stripBoth (p : Char → Bool) (l : List Char) : List Char :=
  dropTrailing p (l.dropWhile p)

def stripLineWs (line : List Char) : List Char := stripBoth isTabSpace line

/-- Fourth clean_text rule: strip spaces and tabs from both ends of
every line. -/
def sub4 (l : List Char) : List Char :=
  joinLines ((splitLines l).map stripLineWs)

/-- Replace every maximal whitespace run by a single space; the flag
records whether the previous input character was whitespace. -/
def collapseAux : Bool → List Char → List Char
  | _, [] => []
  | prevWs, c :: cs =>
    if pySpace c then
      if prevWs then collapseAux true cs else ' ' :: collapseAux true cs
    else c :: collapseAux false cs

def collapseWs (l : List Char) : List Char := collapseAux false l

/-- The strip method of Python strings (whitespace removed from both ends). -/
def pyStrip (l : List Char) : List Char := stripBoth pySpace l

/-- Fifth clean_text step: collapse whitespace runs to single spaces,
then strip the whole string. -/
def clean5 (l : List Char) : List Char := pyStrip (collapseWs l)

/-- clean_text from article_processor.py: empty input short-circuits,
otherwise the five substitution and normalization steps run in order. -/
def clean_text (l : List Char) : List Char :=
  if l.isEmpty then [] else clean5 (sub4 (sub3 (sub2 (sub1 l))))

/-- The fixed fallback text substituted for an empty cleaned summary. -/
def fallbackMarker : List Char := "[Error: No summary generated]".toList

/-- The fallback branch of main: an empty or whitespace-only cleaned
summary is replaced by the fallback marker; the flag records whether
the fallback was taken. -/
def finalizeSummary (summary : List Char) : List Char × Bool :=
  if summary.isEmpty || (pyStrip summary).isEmpty then (fallbackMarker, true)
  else (summary, false)

/-- The exit status computed at the end of main from the emitted summary. -/
def exitCodeOf (emitted : List Char) : Nat :=
  if "[Error".toList.isPrefixOf emitted then 1 else 0

/-- check_repeated_content from article_processor.py, with the cache
file state abstracted to existence plus age in hours. -/
def check_repeated_content (cacheExists : Bool) (cacheAgeHours : ℚ)
    (allowRepeated : String) : Option String :=
  if allowRepeated = "REPEATED" then none
  else if cacheExists then
    (if cacheAgeHours < 24 then some "REPEATED" else none)
  else none

/-- The freshness decision inside fetch_article_content: cached content
is returned, with no network request, exactly when the cache file
exists and is younger than 24 hours; the function takes no override. -/
def fetch_uses_cache (cacheExists : Bool) (cacheAgeHours : ℚ) : Bool :=
  cacheExists && decide (cacheAgeHours < 24)

/-- Modelled from the spec: the cache-store operation isFresh exactly as
section 4.1 words it (true if the override is set, else true when the
age is under 24 hours).  The source has no such function; this spec-side
definition exists only to be compared with the code-side freshness
decisions above. -/
def isFreshSpec (ageHours : ℚ) (overrideForceReuse : Bool) : Bool :=
  overrideForceReuse || decide (ageHours < 24)

/-- The environment a single orchestration run observes: server and
model checks, cache state, the command-line reuse flag, and the
outcomes of the network fetch and of the generation request. -/
structure Env where
  serverReachable : Bool
  modelAvailable : Bool
  cacheExists : Bool
  cacheAgeHours : ℚ
  allowRepeated : String
  cachedText : List Char
  fetchOk : Bool
  fetchedText : List Char
  genOk : Bool
  genResponse : List Char
  deriving DecidableEq

/-- The observable outcome of a run of main: exit status, the single
line printed to standard output, and which effects were performed. -/
structure RunResult where
  exitCode : Nat
  output : Option (List Char)
  fetchedNetwork : Bool
  cacheWritten : Bool
  unloadCalled : Bool
  generateCalled : Bool
  deriving DecidableEq

/-- The tail of main after content is resolved: the generation request
(fatal on transport failure or on a missing response field), cleaning,
the fallback substitution and the final exit status. -/
def afterContent (e : Env) (fetched wrote : Bool) : RunResult :=
  if !e.genOk then ⟨1, none, fetched, wrote, true, true⟩
  else if e.genResponse.isEmpty then ⟨1, none, fetched, wrote, true, true⟩
  else
    let s := finalizeSummary (clean_text e.genResponse)
    ⟨exitCodeOf s.1, some s.1, fetched, wrote, true, true⟩

/-- main from article_processor.py: server check, model check, cache
check with the reuse short-circuit, model unload, content resolution
(cache read or network fetch plus cache write), then generation. -/
def runMain (e : Env) : RunResult :=
  if !e.serverReachable then ⟨1, none, false, false, false, false⟩
  else if !e.modelAvailable then ⟨1, none, false, false, false, false⟩
  else
    match check_repeated_content e.cacheExists e.cacheAgeHours e.allowRepeated with
    | some r => ⟨0, some r.toList, false, false, false, false⟩
    | none =>
      if fetch_uses_cache e.cacheExists e.cacheAgeHours then afterContent e false false
      else if !e.fetchOk then ⟨1, none, true, false, true, false⟩
      else afterContent e true true

/-- One benchmark run record, as run_article3_script builds it. -/
structure RunRecord where
  success : Bool
  summary : Option (List Char)
  time : ℚ
  error : Option (List Char)
  deriving DecidableEq

/-- The outcome of the external orchestrator process: completion with a
return code, expiry of the 300-second timeout, or any other exception. -/
inductive ProcOutcome where
  | completed (returncode : Nat) (stdout : List Char) (stderr : List Char) (elapsed : ℚ)
  | timedOut
  | execError (msg : List Char) (elapsed : ℚ)
  deriving DecidableEq

/-- run_article3_script from llmbench.py: every process outcome, fatal
ones included, is turned into a record; no outcome escapes as an
exception, which is what lets the sweep continue past failures. -/
def run_article3_script : ProcOutcome → RunRecord
  | .completed rc out _ t =>
    if rc = 0 then ⟨true, some (pyStrip out), t, none⟩
    else ⟨false, none, t, some (("Script failed with return code " ++ toString rc).toList)⟩
  | .timedOut => ⟨false, none, 300, some "Timeout after 300 seconds".toList⟩
  | .execError m t => ⟨false, none, t, some ("Execution error: ".toList ++ m)⟩

/-- A process outcome that is not a successful completion. -/
def procFailed : ProcOutcome → Bool
  | .completed rc _ _ _ => rc != 0
  | _ => true

/-- The rows the benchmark sweep writes: for every URL, every model and
every run index one record, whatever the per-run outcomes are. -/
def sweepRows (urls models : List String) (n : Nat)
    (oracle : String → String → Nat → ProcOutcome) :
    List (String × String × Nat × RunRecord) :=
  urls.flatMap fun u => models.flatMap fun m =>
    (List.range n).map fun r => (u, m, r + 1, run_article3_script (oracle u m r))

/-- The (URL, model, run-index) triples of a full sweep. -/
def allTriples (urls models : List String) (n : Nat) :
    List (String × String × Nat) :=
  urls.flatMap fun u => models.flatMap fun m =>
    (List.range n).map fun r => (u, m, r + 1)

/-- The successful_runs counter of the per-pair loop. -/
def successful_runs_count (runs : List (ℚ × Bool)) : Nat :=
  (runs.filter (fun x => x.2)).length

/-- The value of the loop variable result after the per-pair loop: the
outcome of the last run. -/
def lastRunSuccess (runs : List (ℚ × Bool)) : Bool :=
  (runs.getLast?.map (fun x => x.2)).getD false

/-- The successful_times comprehension of llmbench.py line 213: its
filter condition reads the stale loop variable result, the last run of
the pair, so it keeps either every recorded time or none of them. -/
def successful_times (runs : List (ℚ × Bool)) : List ℚ :=
  if lastRunSuccess runs then runs.map (fun x => x.1) else []

def listMean (ts : List ℚ) : ℚ := ts.sum / ts.length

/-- The per-pair mean the driver reports (lines 211 to 217): only when
some run succeeded, and over the times successful_times selects. -/
def pairReportedMean (runs : List (ℚ × Bool)) : Option ℚ :=
  if 0 < successful_runs_count runs then
    (if (successful_times runs).isEmpty then none
     else some (listMean (successful_times runs)))
  else none

/-- Modelled from the spec: the elapsed times of exactly the successful
runs of the pair, over which the spec says mean and standard deviation
are computed. -/
def specSuccessfulTimes (runs : List (ℚ × Bool)) : List ℚ :=
  (runs.filter (fun x => x.2)).map (fun x => x.1)

/-- Modelled from the spec: the per-pair mean over successful runs only,
absent when the pair has no successful run. -/
def specPairMean (runs : List (ℚ × Bool)) : Option ℚ :=
  if (specSuccessfulTimes runs).isEmpty then none
  else some (listMean (specSuccessfulTimes runs))

def embeddingPat : List Char := "-embedding".toList

/-- Substring test, as the in operator of Python strings. -/
def containsSubstr (pat l : List Char) : Bool :=
  l.tails.any fun t => pat.isPrefixOf t

/-- The model filter of llmbench.py line 123: drop empty names and any
name holding the substring -embedding. -/
def filterModels (ms : List String) : List String :=
  ms.filter fun m => (!m.isEmpty) && !containsSubstr embeddingPat m.toList

/-- The driver either stops with an error message before any run, or
produces the full table of rows. -/
inductive DriverOut where
  | fatal (msg : List Char)
  | report (rows : List (String × String × Nat × RunRecord))
  deriving DecidableEq

/-- The benchmark driver after argument parsing: filter the models,
stop with an error when none survive or no URL is given, otherwise run
the full sweep. -/
def driverRun (ms urls : List String) (n : Nat)
    (oracle : String → String → Nat → ProcOutcome) : DriverOut :=
  if (filterModels ms).isEmpty then
    .fatal "Error: No valid models provided after filtering out embedding models.".toList
  else if urls.isEmpty then .fatal "Error: No URLs provided.".toList
  else .report (sweepRows urls (filterModels ms) n oracle)

/-- Adjacent whitespace pairs, used to state whitespace normalization. -/
def noTwoWsB : List Char → Bool
  | c :: d :: rest => (!(pySpace c && pySpace d)) && noTwoWsB (d :: rest)
  | _ => true

/-- Two adjacent literal spaces somewhere in the list. -/
def hasDoubleSpace : List Char → Bool
  | c :: d :: rest => (c = ' ' && d = ' ') || hasDoubleSpace (d :: rest)
  | _ => false

/-- A line of only whitespace, none of it a newline. -/
def allWsLine (line : List Char) : Prop :=
  ∀ c ∈ line, pySpace c = true ∧ c ≠ '\n'

/-- A line of the shape the third clean_text rule removes, with the
word written in lower case as the claim words it. -/
def thinkMarkerLine (line : List Char) : Prop :=
  ∃ p q, line = p ++ thinkingWord ++ q ∧
    (∀ c ∈ p, isTabSpace c = true) ∧ (∀ c ∈ q, isTabSpace c = true)

/-- A line allowed in the whitespace-and-marker inputs of claim C4. -/
def goodLine (line : List Char) : Prop :=
  allWsLine line ∨ thinkMarkerLine line

/-! Claims about the cache freshness decisions (C1), the benchmark
statistics (C2), the fallback and exit status (C5), the end-to-end
abort and short-circuit scenarios (C6, C7), the sweep (C8) and the
model filter (C10). -/

/-- C1, counterexample: the claimed isFresh returns true for any age
once the override is set, but the code gives the override no such
power: with the REPEATED flag set, a 25-hour-old entry is refetched by
the content fetcher (whose freshness test has no override input at
all), and even a 1-hour-old entry produces no reuse signal, because
the flag disables the reuse check entirely. -/
theorem c1_counterexample :
    isFreshSpec 25 true = true ∧ fetch_uses_cache true 25 = false ∧
    isFreshSpec 1 true = true ∧ check_repeated_content true 1 "REPEATED" = none := by
  refine ⟨rfl, by decide, rfl, rfl⟩

/-- C1, amended: freshness in the code has no override input; an entry
is treated as fresh exactly when its age is under 24 hours (fresh at
23 hours, stale at 25), the reuse signal is produced exactly when the
REPEATED flag is not set, the entry exists and it is fresh, and the
fetcher reuses cached content exactly when the entry exists and is
fresh, whatever the flag says. -/
theorem c1_amended (ex : Bool) (age : ℚ) (ov : String) :
    (check_repeated_content ex age ov = some "REPEATED" ↔
      ov ≠ "REPEATED" ∧ ex = true ∧ age < 24) ∧
    (fetch_uses_cache ex age = true ↔ ex = true ∧ age < 24) ∧
    fetch_uses_cache true 23 = true ∧ fetch_uses_cache true 25 = false := by
  refine ⟨?_, ?_, by decide, by decide⟩
  · unfold check_repeated_content
    split_ifs with h1 h2 h3 <;> simp_all
  · unfold fetch_uses_cache
    cases ex <;> simp

/-- C1, witness: the amended statement at an existing 1-hour-old entry
with the flag not set. -/
theorem c1_amended_witness :
    (check_repeated_content true 1 "no" = some "REPEATED" ↔
      "no" ≠ "REPEATED" ∧ true = true ∧ (1 : ℚ) < 24) ∧
    (fetch_uses_cache true 1 = true ↔ true = true ∧ (1 : ℚ) < 24) ∧
    fetch_uses_cache true 23 = true ∧ fetch_uses_cache true 25 = false :=
  c1_amended true 1 "no"

/-- C2, code bug: on one pair with three runs of elapsed times 1, 2, 3
seconds where only the last run succeeded, the comprehension of line
213 filters on the stale loop variable result (the last run), keeps
all three times and reports mean 2, while the claimed statistic over
the successful runs alone is mean 3; conversely when the last run
failed after two successes the code reports no statistic at all. -/
theorem c2_code_bug_eval :
    successful_times [(1, false), (2, false), (3, true)] = [1, 2, 3] ∧
    specSuccessfulTimes [(1, false), (2, false), (3, true)] = [3] ∧
    pairReportedMean [(1, false), (2, false), (3, true)] = some 2 ∧
    specPairMean [(1, false), (2, false), (3, true)] = some 3 ∧
    pairReportedMean [(1, true), (2, true), (3, false)] = none ∧
    specPairMean [(1, true), (2, true), (3, false)] = some (3 / 2) ∧
    pairReportedMean [(1, true), (2, true), (3, true)] = some 2 := by
  refine ⟨by decide, by decide, ?_, ?_, by decide, ?_, ?_⟩
  · simp [pairReportedMean, successful_times, lastRunSuccess,
      successful_runs_count, listMean]
    norm_num
  · simp [specPairMean, specSuccessfulTimes, listMean]
    try norm_num
  · simp [specPairMean, specSuccessfulTimes, listMean]
    try norm_num
  · simp [pairReportedMean, successful_times, lastRunSuccess,
      successful_runs_count, listMean]
    norm_num

/-- C5, counterexample: a completed run whose cleaned summary is the
nonempty text [Error in fetching article] takes no fallback, yet the
exit status test (a prefix test against the fallback text) still
reports failure, so the status is not nonzero exactly for fallback
outcomes. -/
theorem c5_counterexample :
    (finalizeSummary (clean_text "[Error in fetching article]".toList)).2 = false ∧
    (finalizeSummary (clean_text "[Error in fetching article]".toList)).1 ≠ fallbackMarker ∧
    exitCodeOf (finalizeSummary (clean_text "[Error in fetching article]".toList)).1 = 1 := by
  refine ⟨by decide, by decide, by decide⟩

/-- C5, amended: an empty or whitespace-only cleaned summary is
replaced by the fallback marker, a nonempty summary string is always
emitted, every fallback outcome exits nonzero, and a non-fallback
outcome exits zero exactly when its cleaned summary does not begin
with the text [Error; the length budget plays no part in the status. -/
theorem c5_amended (cleaned : List Char) :
    (finalizeSummary cleaned).1 ≠ [] ∧
    ((finalizeSummary cleaned).2 = true →
      (finalizeSummary cleaned).1 = fallbackMarker ∧
      exitCodeOf (finalizeSummary cleaned).1 = 1) ∧
    ((finalizeSummary cleaned).2 = false →
      (finalizeSummary cleaned).1 = cleaned ∧
      (exitCodeOf (finalizeSummary cleaned).1 = 0 ↔
        "[Error".toList.isPrefixOf cleaned = false)) := by
  by_cases h : (cleaned.isEmpty || (pyStrip cleaned).isEmpty) = true
  · have hfs : finalizeSummary cleaned = (fallbackMarker, true) := by
      unfold finalizeSummary
      rw [if_pos h]
    rw [hfs]
    exact ⟨by decide, fun _ => ⟨rfl, by decide⟩, fun hf => by simp at hf⟩
  · have hfs : finalizeSummary cleaned = (cleaned, false) := by
      unfold finalizeSummary
      rw [if_neg h]
    rw [hfs]
    refine ⟨?_, fun ht => by simp at ht, fun _ => ⟨rfl, ?_⟩⟩
    · intro hnil
      simp only [] at hnil
      rw [hnil] at h
      simp at h
    · show exitCodeOf cleaned = 0 ↔ _
      unfold exitCodeOf
      by_cases hp : "[Error".toList.isPrefixOf cleaned = true
      · rw [if_pos hp, hp]
        simp
      · rw [if_neg hp]
        simp only [Bool.not_eq_true] at hp
        rw [hp]
        simp

/-- C5, witness: the amended statement at the empty cleaned summary. -/
theorem c5_amended_witness :
    (finalizeSummary []).1 ≠ [] ∧
    ((finalizeSummary []).2 = true →
      (finalizeSummary []).1 = fallbackMarker ∧
      exitCodeOf (finalizeSummary []).1 = 1) ∧
    ((finalizeSummary []).2 = false →
      (finalizeSummary []).1 = [] ∧
      (exitCodeOf (finalizeSummary []).1 = 0 ↔
        "[Error".toList.isPrefixOf [] = false)) :=
  c5_amended []

/-- C6: whenever the server reachability check fails, main exits with
status 1 before anything else happens: no network fetch, no cache
write, no model unload, no generation request, no output. -/
theorem c6_unreachable_abort (e : Env) (h : e.serverReachable = false) :
    runMain e = ⟨1, none, false, false, false, false⟩ := by
  simp [runMain, h]

/-- C6, witness: a concrete environment with the server down. -/
theorem c6_unreachable_abort_witness :
    runMain ⟨false, true, true, 1, "no", [], true, [], true, ['x']⟩ =
      ⟨1, none, false, false, false, false⟩ :=
  c6_unreachable_abort _ rfl

/-- C7: with the server and model checks passing, an existing cache
entry younger than 24 hours and the REPEATED flag not set, main stops
right after the cache check: it prints the reuse sentinel REPEATED
(not a summary), exits with status 0, and performs no network fetch,
no cache write, no model unload and no generation request. -/
theorem c7_fresh_cache_short_circuit (e : Env) (h1 : e.serverReachable = true)
    (h2 : e.modelAvailable = true) (h3 : e.cacheExists = true)
    (h4 : e.cacheAgeHours < 24) (h5 : e.allowRepeated ≠ "REPEATED") :
    runMain e = ⟨0, some "REPEATED".toList, false, false, false, false⟩ := by
  simp [runMain, h1, h2, check_repeated_content, h3, h4, h5]

/-- C7, witness: a concrete environment with a 1-hour-old entry. -/
theorem c7_fresh_cache_short_circuit_witness :
    runMain ⟨true, true, true, 1, "no", ['a'], true, ['b'], true, ['c']⟩ =
      ⟨0, some "REPEATED".toList, false, false, false, false⟩ :=
  c7_fresh_cache_short_circuit _ rfl rfl rfl (by decide) (by decide)

/-- C8: the sweep always produces exactly one record per (URL, model,
run) triple of the full cross product, whatever each run's outcome
oracle says, and every failed outcome (nonzero return code, timeout,
or any other exception) becomes a record marked unsuccessful that
carries an error message; no per-run failure aborts the sweep. -/
theorem c8_collect_and_continue (urls models : List String) (n : Nat)
    (oracle : String → String → Nat → ProcOutcome) :
    ((sweepRows urls models n oracle).map (fun x => (x.1, x.2.1, x.2.2.1)) =
      allTriples urls models n) ∧
    ∀ po : ProcOutcome, procFailed po = true →
      (run_article3_script po).success = false ∧
      (run_article3_script po).error.isSome = true := by
  constructor
  · simp only [sweepRows, allTriples, List.map_flatMap, List.map_map]
    rfl
  · intro po hpo
    cases po with
    | completed rc out err t =>
      simp [procFailed] at hpo
      simp [run_article3_script, hpo]
    | timedOut => simp [run_article3_script]
    | execError m t => simp [run_article3_script]

/-- C8, witness: a one-run sweep whose only run times out. -/
theorem c8_collect_and_continue_witness :
    ((sweepRows ["u"] ["m"] 1 (fun _ _ _ => ProcOutcome.timedOut)).map
        (fun x => (x.1, x.2.1, x.2.2.1)) =
      allTriples ["u"] ["m"] 1) ∧
    (run_article3_script ProcOutcome.timedOut).success = false ∧
    (run_article3_script ProcOutcome.timedOut).error.isSome = true :=
  ⟨(c8_collect_and_continue ["u"] ["m"] 1 (fun _ _ _ => ProcOutcome.timedOut)).1,
   (c8_collect_and_continue ["u"] ["m"] 1 (fun _ _ _ => ProcOutcome.timedOut)).2
     ProcOutcome.timedOut rfl⟩

/-- C10: every row of a produced report names a model without the
substring -embedding (such models are excluded before any run), and
when every supplied model holds that substring the driver stops with
its error message and performs no run. -/
theorem c10_model_filtering (ms urls : List String) (n : Nat)
    (oracle : String → String → Nat → ProcOutcome) :
    (∀ rows, driverRun ms urls n oracle = DriverOut.report rows →
      ∀ row ∈ rows, containsSubstr embeddingPat row.2.1.toList = false) ∧
    ((∀ m ∈ ms, containsSubstr embeddingPat m.toList = true) →
      driverRun ms urls n oracle =
        DriverOut.fatal
          "Error: No valid models provided after filtering out embedding models.".toList) := by
  constructor
  · intro rows hrep row hrow
    by_cases hA : (filterModels ms).isEmpty
    · simp [driverRun, hA] at hrep
    · by_cases hB : urls.isEmpty
      · simp [driverRun, hA, hB] at hrep
      · simp [driverRun, hA, hB] at hrep
        subst hrep
        simp only [sweepRows, List.mem_flatMap, List.mem_map] at hrow
        obtain ⟨u, hu, m, hm, r, hr, rfl⟩ := hrow
        have hpred := (List.mem_filter.mp hm).2
        simp only [Bool.and_eq_true, Bool.not_eq_true'] at hpred
        exact hpred.2
  · intro hall
    have hnil : filterModels ms = [] := by
      apply List.filter_eq_nil_iff.mpr
      intro m hm
      have hc := hall m hm
      simp only [String.toList] at hc
      simp [hc]
    simp [driverRun, hnil]

/-- C10, witness: one embedding model is filtered to nothing and the
driver stops with the error; the first part applied to a real report
shows its only row names a model free of the substring. -/
theorem c10_model_filtering_witness :
    driverRun ["text-embedding-3"] ["u"] 1 (fun _ _ _ => ProcOutcome.timedOut) =
      DriverOut.fatal
        "Error: No valid models provided after filtering out embedding models.".toList ∧
    containsSubstr embeddingPat ("llama".toList) = false :=
  ⟨(c10_model_filtering ["text-embedding-3"] ["u"] 1
      (fun _ _ _ => ProcOutcome.timedOut)).2 (by decide),
   (c10_model_filtering ["llama"] ["u"] 1
      (fun _ _ _ => ProcOutcome.timedOut)).1
     (sweepRows ["u"] (filterModels ["llama"]) 1 (fun _ _ _ => ProcOutcome.timedOut))
     (by decide)
     ("u", "llama", 1, run_article3_script ProcOutcome.timedOut)
     (by decide)⟩

/-! Character and scanner lemmas used by the cleaning claims. -/

theorem pySpace_cases {c : Char} (h : pySpace c = true) :
    c = ' ' ∨ c = '\t' ∨ c = '\n' ∨ c = '\r' ∨ c = '\x0b' ∨ c = '\x0c' := by
  simp only [pySpace, Bool.or_eq_true, decide_eq_true_eq] at h
  tauto

theorem isTabSpace_cases {c : Char} (h : isTabSpace c = true) :
    c = ' ' ∨ c = '\t' := by
  simp only [isTabSpace, Bool.or_eq_true, decide_eq_true_eq] at h
  tauto

theorem pySpace_of_isTabSpace {c : Char} (h : isTabSpace c = true) :
    pySpace c = true := by
  rcases isTabSpace_cases h with rfl | rfl <;> decide

theorem pySpace_toLower_ne {c : Char} (h : pySpace c = true) : c.toLower ≠ 't' := by
  rcases pySpace_cases h with rfl | rfl | rfl | rfl | rfl | rfl <;> decide

theorem matchLit_self (p r : List Char) : matchLit p (p ++ r) = some r := by
  induction p with
  | nil => rfl
  | cons x xs ih => simp [matchLit, ih]

theorem tryDT_head_ne (c : Char) (m : List Char) (h : c.toLower ≠ 't') :
    tryDoneThinking (c :: m) = none := by
  have ht : ('t' : Char).toLower = 't' := by decide
  have hm : matchLit thinkWord (c :: m) = none := by
    simp only [thinkWord, matchLit]
    rw [ht, if_neg h]
  simp [tryDoneThinking, hm]

theorem tryDT_thinkingWord (x : List Char) :
    tryDoneThinking (thinkingWord ++ x) = none := by
  have h1 : matchLit thinkWord (thinkingWord ++ x) = some ('i' :: 'n' :: 'g' :: x) := by
    simp [thinkWord, thinkingWord, matchLit]
  have h2 : dotOrSpace 'i' = false := by decide
  simp [tryDoneThinking, h1, List.takeWhile_cons, h2]

theorem suffix_append_split {t a b : List Char} (h : t <:+ a ++ b) :
    t <:+ b ∨ ∃ s, s <:+ a ∧ s ≠ [] ∧ t = s ++ b := by
  induction a generalizing t with
  | nil => exact Or.inl h
  | cons x a' ih =>
    rw [List.cons_append] at h
    rcases List.suffix_cons_iff.mp h with h1 | h2
    · exact Or.inr ⟨x :: a', List.suffix_rfl, List.cons_ne_nil x a', by simpa using h1⟩
    · rcases ih h2 with h3 | ⟨s, hs, hne, rfl⟩
      · exact Or.inl h3
      · exact Or.inr ⟨s, hs.trans (List.suffix_cons x a'), hne, rfl⟩

theorem matchOpenThink_none {c : Char} (cs : List Char) (h : c ≠ '<') :
    matchOpenThink (c :: cs) = none := by
  simp [matchOpenThink, h]

theorem sub1F_eq_self : ∀ (n : Nat) (l : List Char), '<' ∉ l → sub1F n l = l := by
  intro n
  induction n with
  | zero => intro l _; rfl
  | succ n ih =>
    intro l h
    match l with
    | [] => rfl
    | c :: cs =>
      have hc : c ≠ '<' := fun hc => h (hc ▸ List.mem_cons_self c cs)
      have ho : matchOpenThink (c :: cs) = none := matchOpenThink_none cs hc
      simp only [sub1F, ho]
      rw [ih cs (fun hm => h (List.mem_cons_of_mem c hm))]

theorem sub1_eq_self {l : List Char} (h : '<' ∉ l) : sub1 l = l :=
  sub1F_eq_self l.length l h

theorem sub2F_eq_self :
    ∀ (n : Nat) (l : List Char),
      (∀ t, t <:+ l → tryDoneThinking t = none) → sub2F n l = l := by
  intro n
  induction n with
  | zero => intro l _; rfl
  | succ n ih =>
    intro l h
    match l with
    | [] => rfl
    | c :: cs =>
      have h0 : tryDoneThinking (c :: cs) = none := h (c :: cs) List.suffix_rfl
      simp only [sub2F, h0]
      rw [ih cs (fun t ht => h t (ht.trans (List.suffix_cons c cs)))]

theorem sub2_eq_self {l : List Char}
    (h : ∀ t, t <:+ l → tryDoneThinking t = none) : sub2 l = l :=
  sub2F_eq_self l.length l h

/-! Line splitting and joining lemmas. -/

theorem splitLines_ne_nil : ∀ l : List Char, splitLines l ≠ [] := by
  intro l
  cases l with
  | nil => simp [splitLines]
  | cons c cs =>
    simp only [splitLines]
    split <;> simp

theorem splitLines_no_nl : ∀ {l : List Char}, '\n' ∉ l → splitLines l = [l] := by
  intro l h
  induction l with
  | nil => rfl
  | cons c cs ih =>
    have hc : c ≠ '\n' := fun hc => h (hc ▸ List.mem_cons_self c cs)
    have ih' := ih (fun hm => h (List.mem_cons_of_mem c hm))
    simp [splitLines, hc, ih']

theorem splitLines_append_nl {a : List Char} (m : List Char) (h : '\n' ∉ a) :
    splitLines (a ++ '\n' :: m) = a :: splitLines m := by
  induction a with
  | nil => simp [splitLines]
  | cons c a' ih =>
    have hc : c ≠ '\n' := fun hc => h (hc ▸ List.mem_cons_self c a')
    have ih' := ih (fun hm => h (List.mem_cons_of_mem c hm))
    simp [splitLines, hc, ih']

theorem splitLines_joinLines :
    ∀ lines : List (List Char), (∀ line ∈ lines, '\n' ∉ line) → lines ≠ [] →
      splitLines (joinLines lines) = lines := by
  intro lines
  induction lines with
  | nil => intro _ hne; exact absurd rfl hne
  | cons a rest ih =>
    intro h _
    cases rest with
    | nil => exact splitLines_no_nl (h a (List.mem_cons_self a []))
    | cons b rest' =>
      have ha : '\n' ∉ a := h a (List.mem_cons_self a _)
      have hrest : ∀ line ∈ b :: rest', '\n' ∉ line :=
        fun line hl => h line (List.mem_cons_of_mem a hl)
      show splitLines (a ++ '\n' :: joinLines (b :: rest')) = a :: b :: rest'
      rw [splitLines_append_nl _ ha, ih hrest (List.cons_ne_nil b rest')]

theorem mem_joinLines :
    ∀ (ls : List (List Char)) (c : Char), c ∈ joinLines ls →
      c = '\n' ∨ ∃ u ∈ ls, c ∈ u := by
  intro ls
  induction ls with
  | nil => intro c h; simp [joinLines] at h
  | cons a rest ih =>
    intro c h
    cases rest with
    | nil => exact Or.inr ⟨a, List.mem_cons_self a [], h⟩
    | cons b rest' =>
      rw [show joinLines (a :: b :: rest') = a ++ '\n' :: joinLines (b :: rest') from rfl]
        at h
      rcases List.mem_append.mp h with h1 | h2
      · exact Or.inr ⟨a, List.mem_cons_self a _, h1⟩
      · rcases List.mem_cons.mp h2 with h3 | h4
        · exact Or.inl h3
        · rcases ih c h4 with h5 | ⟨u, hu, hcu⟩
          · exact Or.inl h5
          · exact Or.inr ⟨u, List.mem_cons_of_mem a hu, hcu⟩

theorem mem_splitLines :
    ∀ (l : List Char) (u : List Char), u ∈ splitLines l → ∀ c ∈ u, c ∈ l := by
  intro l
  induction l with
  | nil =>
    intro u hu c hc
    simp [splitLines] at hu
    subst hu
    simp at hc
  | cons x xs ih =>
    intro u hu c hc
    by_cases hx : x = '\n'
    · rw [hx] at hu ⊢
      simp only [splitLines, if_pos rfl] at hu
      rcases List.mem_cons.mp hu with h1 | h2
      · subst h1; simp at hc
      · exact List.mem_cons_of_mem _ (ih u h2 c hc)
    · simp only [splitLines, if_neg hx] at hu
      rcases List.mem_cons.mp hu with h1 | h2
      · subst h1
        rcases List.mem_cons.mp hc with h3 | h4
        · exact h3 ▸ List.mem_cons_self x xs
        · obtain ⟨y, ys, hys⟩ := List.exists_cons_of_ne_nil (splitLines_ne_nil xs)
          have hy : (splitLines xs).headI ∈ splitLines xs := by
            rw [hys]; simp
          exact List.mem_cons_of_mem _ (ih _ hy c h4)
      · have : u ∈ splitLines xs := List.mem_of_mem_tail h2
        exact List.mem_cons_of_mem _ (ih u this c hc)

/-! Stripping and whitespace-collapsing lemmas. -/

theorem dropWhile_all {p : Char → Bool} {l : List Char}
    (h : ∀ c ∈ l, p c = true) : l.dropWhile p = [] :=
  List.dropWhile_eq_nil_iff.mpr h

theorem head?_dropWhile_not {p : Char → Bool} :
    ∀ {l : List Char} {c : Char}, (l.dropWhile p).head? = some c → p c = false := by
  intro l
  induction l with
  | nil => intro c h; simp at h
  | cons x xs ih =>
    intro c h
    by_cases hx : p x = true
    · rw [List.dropWhile_cons_of_pos hx] at h
      exact ih h
    · rw [List.dropWhile_cons_of_neg hx] at h
      simp at h
      subst h
      simp only [Bool.not_eq_true] at hx
      exact hx

theorem dropTrailing_mem {p : Char → Bool} :
    ∀ {l : List Char} {c : Char}, c ∈ dropTrailing p l → c ∈ l := by
  intro l
  induction l with
  | nil => intro c h; simp [dropTrailing] at h
  | cons x xs ih =>
    intro c h
    simp only [dropTrailing] at h
    split at h
    · split at h
      · simp at h
      · rcases List.mem_cons.mp h with h1 | h2
        · exact h1 ▸ List.mem_cons_self x xs
        · simp at h2
    · rcases List.mem_cons.mp h with h1 | h2
      · exact h1 ▸ List.mem_cons_self x xs
      · exact List.mem_cons_of_mem x (ih h2)

theorem dropTrailing_getLast {p : Char → Bool} :
    ∀ {l : List Char} {c : Char},
      (dropTrailing p l).getLast? = some c → p c = false := by
  intro l
  induction l with
  | nil => intro c h; simp [dropTrailing] at h
  | cons x xs ih =>
    intro c h
    simp only [dropTrailing] at h
    split at h
    · by_cases hx : p x = true
      · rw [if_pos hx] at h
        simp at h
      · rw [if_neg hx] at h
        simp at h
        subst h
        simp only [Bool.not_eq_true] at hx
        exact hx
    · rename_i hne
      obtain ⟨y, ys, hys⟩ :
          ∃ y ys, dropTrailing p xs = y :: ys := by
        rcases hd : dropTrailing p xs with _ | ⟨y, ys⟩
        · rw [hd] at hne; simp at hne
        · exact ⟨y, ys, rfl⟩
      rw [hys] at h
      rw [List.getLast?_cons_cons] at h
      exact ih (hys ▸ h)

theorem dropTrailing_head? {p : Char → Bool} :
    ∀ {l : List Char} {c : Char},
      (dropTrailing p l).head? = some c → l.head? = some c := by
  intro l
  cases l with
  | nil => intro c h; simp [dropTrailing] at h
  | cons x xs =>
    intro c h
    simp only [dropTrailing] at h
    split at h
    · split at h
      · simp at h
      · simp at h
        simp [h]
    · simp at h
      simp [h]

theorem dropTrailing_eq_self {p : Char → Bool} :
    ∀ {l : List Char}, (∀ c, l.getLast? = some c → p c = false) →
      dropTrailing p l = l := by
  intro l
  induction l with
  | nil => intro _; rfl
  | cons x xs ih =>
    intro h
    cases xs with
    | nil =>
      have hx : p x = false := h x rfl
      simp [dropTrailing, hx]
    | cons y ys =>
      have hxs : dropTrailing p (y :: ys) = y :: ys := by
        apply ih
        intro c hc
        exact h c (by rw [List.getLast?_cons_cons]; exact hc)
      have hstep : dropTrailing p (x :: y :: ys) =
          if (dropTrailing p (y :: ys)).isEmpty then
            (if p x then [] else [x]) else x :: dropTrailing p (y :: ys) := rfl
      rw [hstep, hxs]
      simp

theorem noTwoWsB_cons (a : Char) (m : List Char) :
    noTwoWsB (a :: m) = true ↔
      noTwoWsB m = true ∧ ∀ x, m.head? = some x → (pySpace a && pySpace x) = false := by
  cases m with
  | nil => simp [noTwoWsB]
  | cons b m' =>
    simp only [noTwoWsB, Bool.and_eq_true, Bool.not_eq_true', List.head?_cons]
    constructor
    · rintro ⟨h1, h2⟩
      exact ⟨h2, fun x hx => by cases hx; exact h1⟩
    · rintro ⟨h1, h2⟩
      exact ⟨h2 b rfl, h1⟩

theorem noTwoWsB_dropWhile {p : Char → Bool} :
    ∀ {l : List Char}, noTwoWsB l = true → noTwoWsB (l.dropWhile p) = true := by
  intro l
  induction l with
  | nil => intro h; exact h
  | cons x xs ih =>
    intro h
    by_cases hx : p x = true
    · rw [List.dropWhile_cons_of_pos hx]
      exact ih ((noTwoWsB_cons x xs).mp h).1
    · rw [List.dropWhile_cons_of_neg hx]
      exact h

theorem noTwoWsB_dropTrailing {p : Char → Bool} :
    ∀ {l : List Char}, noTwoWsB l = true → noTwoWsB (dropTrailing p l) = true := by
  intro l
  induction l with
  | nil => intro h; exact h
  | cons x xs ih =>
    intro h
    have h' := (noTwoWsB_cons x xs).mp h
    simp only [dropTrailing]
    split
    · split
      · simp [noTwoWsB]
      · simp [noTwoWsB]
    · rename_i hne
      apply (noTwoWsB_cons x (dropTrailing p xs)).mpr
      refine ⟨ih h'.1, ?_⟩
      intro c hc
      exact h'.2 c (dropTrailing_head? hc)

theorem hasDoubleSpace_eq_false :
    ∀ {l : List Char}, noTwoWsB l = true → hasDoubleSpace l = false := by
  intro l
  induction l with
  | nil => intro _; rfl
  | cons x xs ih =>
    intro h
    cases xs with
    | nil => rfl
    | cons y ys =>
      simp only [noTwoWsB, Bool.and_eq_true, Bool.not_eq_true'] at h
      simp only [hasDoubleSpace, Bool.or_eq_false_iff]
      constructor
      · by_cases hx : x = ' '
        · by_cases hy : y = ' '
          · exfalso
            rw [hx, hy] at h
            simp [pySpace] at h
          · simp [hy]
        · simp [hx]
      · exact ih h.2

theorem collapseAux_mem :
    ∀ {l : List Char} {b : Bool} {c : Char}, c ∈ collapseAux b l →
      c = ' ' ∨ (c ∈ l ∧ pySpace c = false) := by
  intro l
  induction l with
  | nil => intro b c h; simp [collapseAux] at h
  | cons x xs ih =>
    intro b c h
    by_cases hx : pySpace x = true
    · rw [show collapseAux b (x :: xs) =
          (if b then collapseAux true xs else ' ' :: collapseAux true xs) from by
        simp [collapseAux, hx]] at h
      cases b with
      | true =>
        rw [if_pos rfl] at h
        rcases ih h with h1 | ⟨h2, h3⟩
        · exact Or.inl h1
        · exact Or.inr ⟨List.mem_cons_of_mem x h2, h3⟩
      | false =>
        rw [if_neg (by simp)] at h
        rcases List.mem_cons.mp h with h1 | h2
        · exact Or.inl h1
        · rcases ih h2 with h3 | ⟨h4, h5⟩
          · exact Or.inl h3
          · exact Or.inr ⟨List.mem_cons_of_mem x h4, h5⟩
    · rw [show collapseAux b (x :: xs) = x :: collapseAux false xs from by
        simp [collapseAux, hx]] at h
      rcases List.mem_cons.mp h with h1 | h2
      · subst h1
        exact Or.inr ⟨List.mem_cons_self c xs, by simpa using hx⟩
      · rcases ih h2 with h3 | ⟨h4, h5⟩
        · exact Or.inl h3
        · exact Or.inr ⟨List.mem_cons_of_mem x h4, h5⟩

theorem collapseAux_head_true :
    ∀ {l : List Char} {c : Char}, (collapseAux true l).head? = some c →
      pySpace c = false := by
  intro l
  induction l with
  | nil => intro c h; simp [collapseAux] at h
  | cons x xs ih =>
    intro c h
    by_cases hx : pySpace x = true
    · rw [show collapseAux true (x :: xs) = collapseAux true xs from by
        simp [collapseAux, hx]] at h
      exact ih h
    · rw [show collapseAux true (x :: xs) = x :: collapseAux false xs from by
        simp [collapseAux, hx]] at h
      simp at h
      subst h
      simpa using hx

theorem collapseAux_noTwo :
    ∀ (l : List Char) (b : Bool), noTwoWsB (collapseAux b l) = true := by
  intro l
  induction l with
  | nil => intro b; rfl
  | cons x xs ih =>
    intro b
    by_cases hx : pySpace x = true
    · cases b with
      | true =>
        rw [show collapseAux true (x :: xs) = collapseAux true xs from by
          simp [collapseAux, hx]]
        exact ih true
      | false =>
        rw [show collapseAux false (x :: xs) = ' ' :: collapseAux true xs from by
          simp [collapseAux, hx]]
        apply (noTwoWsB_cons _ _).mpr
        refine ⟨ih true, ?_⟩
        intro c hc
        have := collapseAux_head_true hc
        simp [this]
    · rw [show collapseAux b (x :: xs) = x :: collapseAux false xs from by
        simp [collapseAux, hx]]
      apply (noTwoWsB_cons _ _).mpr
      refine ⟨ih false, ?_⟩
      intro c _
      simp only [Bool.not_eq_true] at hx
      simp [hx]

theorem collapseAux_eq_self :
    ∀ {l : List Char},
      (∀ c ∈ l, pySpace c = true → c = ' ') → noTwoWsB l = true →
      ∀ {b : Bool}, (b = true → ∀ c, l.head? = some c → pySpace c = false) →
      collapseAux b l = l := by
  intro l
  induction l with
  | nil => intro _ _ b _; rfl
  | cons x xs ih =>
    intro hsp hch b hb
    have hch' := (noTwoWsB_cons x xs).mp hch
    by_cases hx : pySpace x = true
    · cases b with
      | true =>
        exfalso
        have := hb rfl x rfl
        rw [this] at hx
        exact Bool.false_ne_true hx
      | false =>
        rw [show collapseAux false (x :: xs) = ' ' :: collapseAux true xs from by
          simp [collapseAux, hx]]
        have hxsp : x = ' ' := hsp x (List.mem_cons_self x xs) hx
        have hxs : collapseAux true xs = xs := by
          apply ih (fun c hc hws => hsp c (List.mem_cons_of_mem x hc) hws) hch'.1
          intro _ c hc
          have := hch'.2 c hc
          simp only [hx, Bool.true_and] at this
          exact this
        rw [hxs, hxsp]
    · rw [show collapseAux b (x :: xs) = x :: collapseAux false xs from by
        simp [collapseAux, hx]]
      have hxs : collapseAux false xs = xs := by
        apply ih (fun c hc hws => hsp c (List.mem_cons_of_mem x hc) hws) hch'.1
        intro hfalse
        exact absurd hfalse (by simp)
      rw [hxs]

theorem clean5_sp {m : List Char} :
    ∀ c ∈ clean5 m, pySpace c = true → c = ' ' := by
  intro c hc hws
  have h1 : c ∈ (collapseWs m).dropWhile pySpace := dropTrailing_mem hc
  have h2 : c ∈ collapseWs m := (List.dropWhile_suffix pySpace).mem h1
  rcases collapseAux_mem h2 with h3 | ⟨_, h4⟩
  · exact h3
  · rw [hws] at h4
    exact absurd h4 (by simp)

theorem clean5_noTwo (m : List Char) : noTwoWsB (clean5 m) = true :=
  noTwoWsB_dropTrailing (noTwoWsB_dropWhile (collapseAux_noTwo m false))

theorem clean5_head {m : List Char} {c : Char}
    (h : (clean5 m).head? = some c) : pySpace c = false :=
  head?_dropWhile_not (dropTrailing_head? h)

theorem clean5_last {m : List Char} {c : Char}
    (h : (clean5 m).getLast? = some c) : pySpace c = false :=
  dropTrailing_getLast h

theorem clean5_all_ws {m : List Char} (h : ∀ c ∈ m, pySpace c = true) :
    clean5 m = [] := by
  have hcol : ∀ c ∈ collapseWs m, pySpace c = true := by
    intro c hc
    rcases collapseAux_mem hc with h1 | ⟨h2, h3⟩
    · rw [h1]; decide
    · rw [h c h2] at h3
      exact absurd h3 (by simp)
  show dropTrailing pySpace ((collapseWs m).dropWhile pySpace) = []
  rw [dropWhile_all hcol]
  rfl

theorem isTabSpace_eq_false {c : Char} (h : pySpace c = false) :
    isTabSpace c = false := by
  cases hts : isTabSpace c
  · rfl
  · rw [pySpace_of_isTabSpace hts] at h
    exact absurd h (by simp)

theorem stripBoth_eq_self {p : Char → Bool} {l : List Char}
    (hh : ∀ c, l.head? = some c → p c = false)
    (hl : ∀ c, l.getLast? = some c → p c = false) :
    stripBoth p l = l := by
  have hd : l.dropWhile p = l := by
    cases l with
    | nil => rfl
    | cons x xs => exact List.dropWhile_cons_of_neg (by simp [hh x rfl])
  show dropTrailing p (l.dropWhile p) = l
  rw [hd]
  exact dropTrailing_eq_self hl

theorem clean_text_of_ne_nil {m : List Char} (h : m.isEmpty = false) :
    clean_text m = clean5 (sub4 (sub3 (sub2 (sub1 m)))) := by
  simp [clean_text, h]

theorem clean_text_sp (l : List Char) :
    ∀ c ∈ clean_text l, pySpace c = true → c = ' ' := by
  unfold clean_text
  split
  · intro c hc
    simp at hc
  · exact clean5_sp

theorem clean_text_noTwo (l : List Char) : noTwoWsB (clean_text l) = true := by
  unfold clean_text
  split
  · rfl
  · exact clean5_noTwo _

theorem clean_text_head {l : List Char} {c : Char}
    (h : (clean_text l).head? = some c) : pySpace c = false := by
  unfold clean_text at h
  split at h
  · simp at h
  · exact clean5_head h

theorem clean_text_last {l : List Char} {c : Char}
    (h : (clean_text l).getLast? = some c) : pySpace c = false := by
  unfold clean_text at h
  split at h
  · simp at h
  · exact clean5_last h

theorem clean_text_no_nl (l : List Char) : '\n' ∉ clean_text l := by
  intro h
  have := clean_text_sp l '\n' h (by decide)
  exact absurd this (by decide)

theorem clean_text_no_tab (l : List Char) : '\t' ∉ clean_text l := by
  intro h
  have := clean_text_sp l '\t' h (by decide)
  exact absurd this (by decide)

theorem sub3_eq_self {t : List Char} (hnl : '\n' ∉ t)
    (hth : isThinkingLine t = false) : sub3 t = t := by
  unfold sub3
  rw [splitLines_no_nl hnl]
  simp [zapThinking, hth, joinLines]

theorem sub4_eq_self {t : List Char} (hnl : '\n' ∉ t)
    (hh : ∀ c, t.head? = some c → pySpace c = false)
    (hl : ∀ c, t.getLast? = some c → pySpace c = false) : sub4 t = t := by
  unfold sub4
  rw [splitLines_no_nl hnl]
  have hstrip : stripLineWs t = t := by
    apply stripBoth_eq_self
    · intro c hc
      exact isTabSpace_eq_false (hh c hc)
    · intro c hc
      exact isTabSpace_eq_false (hl c hc)
  simp [hstrip, joinLines]

theorem clean5_eq_self {t : List Char}
    (hsp : ∀ c ∈ t, pySpace c = true → c = ' ')
    (hch : noTwoWsB t = true)
    (hh : ∀ c, t.head? = some c → pySpace c = false)
    (hl : ∀ c, t.getLast? = some c → pySpace c = false) : clean5 t = t := by
  have hcol : collapseWs t = t :=
    collapseAux_eq_self hsp hch (fun hb => absurd hb (by simp))
  show pyStrip (collapseWs t) = t
  rw [hcol]
  exact stripBoth_eq_self hh hl

/-! Claims about the cleaning transform (C3, C4, C9). -/

/-- C9: the output of clean_text never holds a tab or a newline, never
holds two adjacent spaces, and neither begins nor ends with
whitespace; the empty input gives the empty output. -/
theorem c9_clean_invariant (l : List Char) :
    '\t' ∉ clean_text l ∧ '\n' ∉ clean_text l ∧
    hasDoubleSpace (clean_text l) = false ∧
    (∀ c, (clean_text l).head? = some c → pySpace c = false) ∧
    (∀ c, (clean_text l).getLast? = some c → pySpace c = false) ∧
    clean_text ([] : List Char) = [] :=
  ⟨clean_text_no_tab l, clean_text_no_nl l,
   hasDoubleSpace_eq_false (clean_text_noTwo l),
   fun _ hc => clean_text_head hc, fun _ hc => clean_text_last hc, rfl⟩

/-- C9, witness: the invariant at a concrete messy input, with the
head hypothesis discharged at its actual first output character. -/
theorem c9_clean_invariant_witness :
    '\t' ∉ clean_text " a \t b ".toList ∧
    hasDoubleSpace (clean_text " a \t b ".toList) = false ∧
    pySpace 'a' = false :=
  ⟨(c9_clean_invariant " a \t b ".toList).1,
   (c9_clean_invariant " a \t b ".toList).2.2.1,
   (c9_clean_invariant " a \t b ".toList).2.2.2.1 'a' (by decide)⟩

/-- C3, counterexample: cleaning is not idempotent; on the input
produced by splicing a think region inside the spelling of another
think region, one application leaves a fresh think region (removed
text is not rescanned) and a second application removes it. -/
theorem c3_counterexample :
    clean_text (clean_text "<th<think>x</think>ink>y</think>".toList) ≠
      clean_text "<th<think>x</think>ink>y</think>".toList := by
  decide

/-- C3, amended: the cleaning transform is idempotent on every input
whose cleaned output is free of residual thinking patterns, that is,
whenever the first two removal rules leave the output unchanged and
the output is not itself a thinking marker line; the counterexample
shows the general statement fails because a removal can splice a new
pattern together, which the same pass never rescans. -/
theorem c3_amended (l : List Char)
    (h1 : sub1 (clean_text l) = clean_text l)
    (h2 : sub2 (clean_text l) = clean_text l)
    (h3 : isThinkingLine (clean_text l) = false) :
    clean_text (clean_text l) = clean_text l := by
  by_cases hE : (clean_text l).isEmpty = true
  · have hnil : clean_text l = [] := by
      cases hcl : clean_text l with
      | nil => rfl
      | cons x xs => rw [hcl] at hE; simp at hE
    rw [hnil]
    rfl
  · have hE' : (clean_text l).isEmpty = false := by
      simpa using hE
    have hnl : '\n' ∉ clean_text l := clean_text_no_nl l
    rw [clean_text_of_ne_nil hE', h1, h2, sub3_eq_self hnl h3,
      sub4_eq_self hnl (fun _ hc => clean_text_head hc)
        (fun _ hc => clean_text_last hc)]
    exact clean5_eq_self (clean_text_sp l) (clean_text_noTwo l)
      (fun _ hc => clean_text_head hc) (fun _ hc => clean_text_last hc)

/-- C3, witness: the amended statement at an ordinary input, every
hypothesis checked by evaluation. -/
theorem c3_amended_witness :
    clean_text (clean_text "hello there".toList) =
      clean_text "hello there".toList :=
  c3_amended "hello there".toList (by decide) (by decide) (by decide)

/-! Safety of the whitespace-and-marker input family against the two
removal scanners, and propagation of whitespace through the pipeline. -/

theorem dropWhile_append_all {p : Char → Bool} {a : List Char} (m : List Char)
    (h : ∀ c ∈ a, p c = true) : (a ++ m).dropWhile p = m.dropWhile p := by
  induction a with
  | nil => rfl
  | cons x a' ih =>
    rw [List.cons_append,
      List.dropWhile_cons_of_pos (h x (List.mem_cons_self x a'))]
    exact ih (fun c hc => h c (List.mem_cons_of_mem x hc))

theorem isThinkingLine_marker {p q : List Char}
    (hp : ∀ c ∈ p, isTabSpace c = true) (hq : ∀ c ∈ q, isTabSpace c = true) :
    isThinkingLine (p ++ thinkingWord ++ q) = true := by
  unfold isThinkingLine
  have h1 : (p ++ thinkingWord ++ q).dropWhile isTabSpace = thinkingWord ++ q := by
    rw [List.append_assoc, dropWhile_append_all _ hp]
    exact List.dropWhile_cons_of_neg (by decide)
  rw [h1, matchLit_self]
  simp [dropWhile_all hq]

theorem lineSafe_allWs {line z : List Char}
    (hline : ∀ c ∈ line, pySpace c = true)
    (hz : ∀ t, t <:+ z → tryDoneThinking t = none) :
    ∀ t, t <:+ line ++ z → tryDoneThinking t = none := by
  intro t ht
  rcases suffix_append_split ht with h1 | ⟨s, hs, hne, rfl⟩
  · exact hz t h1
  · obtain ⟨c, s', rfl⟩ := List.exists_cons_of_ne_nil hne
    have hcl : c ∈ line := hs.mem (List.mem_cons_self c s')
    exact tryDT_head_ne c _ (pySpace_toLower_ne (hline c hcl))

theorem lineSafe_marker {p q z : List Char}
    (hp : ∀ c ∈ p, isTabSpace c = true) (hq : ∀ c ∈ q, isTabSpace c = true)
    (hz : ∀ t, t <:+ z → tryDoneThinking t = none) :
    ∀ t, t <:+ (p ++ thinkingWord ++ q) ++ z → tryDoneThinking t = none := by
  intro t ht
  have ht' : t <:+ p ++ (thinkingWord ++ (q ++ z)) := by
    simpa [List.append_assoc] using ht
  rcases suffix_append_split ht' with h1 | ⟨s, hs, hne, rfl⟩
  · rcases suffix_append_split h1 with h2 | ⟨s, hs, hne, rfl⟩
    · rcases suffix_append_split h2 with h3 | ⟨s, hs, hne, rfl⟩
      · exact hz t h3
      · obtain ⟨c, s', rfl⟩ := List.exists_cons_of_ne_nil hne
        have hcq : c ∈ q := hs.mem (List.mem_cons_self c s')
        exact tryDT_head_ne c _
          (pySpace_toLower_ne (pySpace_of_isTabSpace (hq c hcq)))
    · have hmem : s ∈ thinkingWord.tails := (List.mem_tails s thinkingWord).mpr hs
      simp only [thinkingWord, List.tails_cons, List.tails,
        List.mem_cons, List.mem_singleton] at hmem
      rcases hmem with rfl | rfl | rfl | rfl | rfl | rfl | rfl | rfl | (rfl | habs)
      · exact tryDT_thinkingWord (q ++ z)
      · exact tryDT_head_ne _ _ (by decide)
      · exact tryDT_head_ne _ _ (by decide)
      · exact tryDT_head_ne _ _ (by decide)
      · exact tryDT_head_ne _ _ (by decide)
      · exact tryDT_head_ne _ _ (by decide)
      · exact tryDT_head_ne _ _ (by decide)
      · exact tryDT_head_ne _ _ (by decide)
      · exact absurd rfl hne
      · simp at habs
  · obtain ⟨c, s', rfl⟩ := List.exists_cons_of_ne_nil hne
    have hcp : c ∈ p := hs.mem (List.mem_cons_self c s')
    exact tryDT_head_ne c _
      (pySpace_toLower_ne (pySpace_of_isTabSpace (hp c hcp)))

theorem joinSafe :
    ∀ lines : List (List Char), (∀ line ∈ lines, goodLine line) →
      ∀ t, t <:+ joinLines lines → tryDoneThinking t = none := by
  intro lines
  induction lines with
  | nil =>
    intro _ t ht
    have hnil : t = [] := List.suffix_nil.mp ht
    subst hnil
    rfl
  | cons a rest ih =>
    intro h t ht
    cases rest with
    | nil =>
      have ht' : t <:+ a ++ [] := by simpa using ht
      have hz : ∀ t', t' <:+ ([] : List Char) → tryDoneThinking t' = none := by
        intro t' ht''
        have hnil : t' = [] := List.suffix_nil.mp ht''
        subst hnil
        rfl
      have hg : allWsLine a ∨ thinkMarkerLine a := h a (List.mem_cons_self a [])
      rcases hg with hws | ⟨p, q, rfl, hp, hq⟩
      · exact lineSafe_allWs (fun c hc => (hws c hc).1) hz t ht'
      · exact lineSafe_marker hp hq hz t ht'
    | cons b rest' =>
      have hj : joinLines (a :: b :: rest') = a ++ '\n' :: joinLines (b :: rest') := rfl
      rw [hj] at ht
      have hz : ∀ t', t' <:+ '\n' :: joinLines (b :: rest') →
          tryDoneThinking t' = none := by
        intro t' ht'
        rcases List.suffix_cons_iff.mp ht' with rfl | h2
        · exact tryDT_head_ne _ _ (by decide)
        · exact ih (fun line hl => h line (List.mem_cons_of_mem a hl)) t' h2
      have hg : allWsLine a ∨ thinkMarkerLine a := h a (List.mem_cons_self a _)
      rcases hg with hws | ⟨p, q, rfl, hp, hq⟩
      · exact lineSafe_allWs (fun c hc => (hws c hc).1) hz t ht
      · exact lineSafe_marker hp hq hz t ht

theorem no_nl_of_goodLine {line : List Char} (h : goodLine line) : '\n' ∉ line := by
  intro hin
  have hg : allWsLine line ∨ thinkMarkerLine line := h
  rcases hg with hws | ⟨p, q, rfl, hp, hq⟩
  · exact (hws '\n' hin).2 rfl
  · rcases List.mem_append.mp hin with h2 | h3
    · rcases List.mem_append.mp h2 with h4 | h5
      · exact absurd (hp '\n' h4) (by decide)
      · exact absurd h5 (by decide)
    · exact absurd (hq '\n' h3) (by decide)

theorem no_lt_joinLines {lines : List (List Char)}
    (h : ∀ line ∈ lines, goodLine line) : '<' ∉ joinLines lines := by
  intro hin
  rcases mem_joinLines lines '<' hin with h1 | ⟨u, hu, hcu⟩
  · exact absurd h1 (by decide)
  · have hg : allWsLine u ∨ thinkMarkerLine u := h u hu
    rcases hg with hws | ⟨p, q, rfl, hp, hq⟩
    · exact absurd (hws '<' hcu).1 (by decide)
    · rcases List.mem_append.mp hcu with h2 | h3
      · rcases List.mem_append.mp h2 with h4 | h5
        · exact absurd (hp '<' h4) (by decide)
        · exact absurd h5 (by decide)
      · exact absurd (hq '<' h3) (by decide)

theorem sub3_join_allWs {lines : List (List Char)}
    (h : ∀ line ∈ lines, goodLine line) (hne : lines ≠ []) :
    ∀ c ∈ sub3 (joinLines lines), pySpace c = true := by
  intro c hc
  unfold sub3 at hc
  rw [splitLines_joinLines lines
    (fun line hl => no_nl_of_goodLine (h line hl)) hne] at hc
  rcases mem_joinLines _ c hc with rfl | ⟨u, hu, hcu⟩
  · decide
  · rcases List.mem_map.mp hu with ⟨line, hline, rfl⟩
    have hg : allWsLine line ∨ thinkMarkerLine line := h line hline
    rcases hg with hws | ⟨p, q, rfl, hp, hq⟩
    · unfold zapThinking at hcu
      split at hcu
      · simp at hcu
      · exact (hws c hcu).1
    · unfold zapThinking at hcu
      rw [if_pos (isThinkingLine_marker hp hq)] at hcu
      simp at hcu

theorem sub4_allWs {m : List Char} (h : ∀ c ∈ m, pySpace c = true) :
    ∀ c ∈ sub4 m, pySpace c = true := by
  intro c hc
  unfold sub4 at hc
  rcases mem_joinLines _ c hc with rfl | ⟨u, hu, hcu⟩
  · decide
  · rcases List.mem_map.mp hu with ⟨line, hline, rfl⟩
    have h1 : c ∈ line.dropWhile isTabSpace := dropTrailing_mem hcu
    have h2 : c ∈ line := (List.dropWhile_suffix isTabSpace).mem h1
    exact h c (mem_splitLines m line hline c h2)

/-- C4: cleaning the tagged example yields exactly the final answer,
and cleaning any input made of whitespace lines and lines holding
solely the word thinking (with optional spaces and tabs around it)
yields the empty string. -/
theorem c4_cleaning :
    clean_text "<think>internal reasoning</think>Final answer here".toList =
      "Final answer here".toList ∧
    ∀ lines : List (List Char), (∀ line ∈ lines, goodLine line) →
      clean_text (joinLines lines) = [] := by
  constructor
  · decide
  · intro lines h
    by_cases hne : lines = []
    · subst hne
      rfl
    by_cases hE : (joinLines lines).isEmpty = true
    · unfold clean_text
      rw [if_pos hE]
    · rw [clean_text_of_ne_nil (by simpa using hE),
        sub1_eq_self (no_lt_joinLines h), sub2_eq_self (joinSafe lines h)]
      exact clean5_all_ws (fun c hc => sub4_allWs (sub3_join_allWs h hne) c hc)

/-- C4, witness: the concrete tagged example, and a concrete two-line
whitespace-and-marker input, both cleaned as the claim states. -/
theorem c4_cleaning_witness :
    clean_text "<think>internal reasoning</think>Final answer here".toList =
      "Final answer here".toList ∧
    clean_text (joinLines [[' '], [' ', ' ', 't', 'h', 'i', 'n', 'k', 'i', 'n', 'g', '\t']]) = [] :=
  ⟨c4_cleaning.1,
   c4_cleaning.2 [[' '], [' ', ' ', 't', 'h', 'i', 'n', 'k', 'i', 'n', 'g', '\t']] (by
     intro line hl
     simp only [List.mem_cons, List.mem_singleton] at hl
     rcases hl with rfl | rfl | hfalse
     · exact Or.inl (by
         intro c hc
         simp only [List.mem_singleton] at hc
         subst hc
         exact ⟨by decide, by decide⟩)
     · exact Or.inr ⟨[' ', ' '], ['\t'], by decide, by decide, by decide⟩
     · simp at hfalse)⟩
